import Mathlib

/-!
Verification of the ANSI-aware line wrapper `wrap_ansicode` of the
term-rst-post repository (src/term_rst_post/ansimotd.py).

The Python function is embedded shallowly: strings are lists of Unicode
characters (`List Char`), Python slicing / `str.find` / `str.lstrip` are
modelled with their exact CPython semantics (negative indices resolved
from the end of the string, out-of-range indices clamped), and
`textwrap.wrap(text, width, replace_whitespace=False, drop_whitespace=False,
break_long_words=False)` is modelled after the CPython implementation:
tab expansion, splitting with `wordsep_re`, and greedy chunk filling with
the no-break handling of over-long words.  Character classes of the `re`
module (`\w`, the letter class `[^\d\W]`) are modelled for the ASCII range,
which covers the terminal text this program processes.  Recursions that are
not structural use a fuel argument bounded by the scanned length, so that
every definition evaluates inside the kernel; each fuel budget is sufficient
because every step of the corresponding Python loop consumes at least one
character (resp. one chunk).

Diagnostic logging is modelled by threading an explicit list of structured
log events through the computation (`wrap_ansicode_log`); the pure view
`wrap_ansicode` is the first component.
-/

/-- A Python string: a finite sequence of code points. -/
abbrev Str := List Char

/-! ## Python string primitives -/

/-- Resolution of a Python slice index: a negative index counts from the end
of the string, and the result is clamped to `[0, len]`. -/
def pyIdx (len : Nat) (i : Int) : Nat :=
  if i < 0 then (i + (len : Int)).toNat else min i.toNat len

/-- Python slice `s[a:b]` with integer (possibly negative) bounds. -/
def pySlice (s : Str) (a b : Int) : Str :=
  (s.take (pyIdx s.length b)).drop (pyIdx s.length a)

/-- Python slice `s[a:]`. -/
def pySliceFrom (s : Str) (a : Int) : Str :=
  pySlice s a (s.length : Int)

/-- Python slice `s[:b]`. -/
def pySliceTo (s : Str) (b : Int) : Str :=
  pySlice s 0 b

/-- Helper for `str_find`: index of the first occurrence of `sub`. -/
def str_find_aux (sub : Str) : Str → Option Nat
  | [] => if sub.isPrefixOf ([] : Str) then some 0 else none
  | c :: r =>
    if sub.isPrefixOf (c :: r) then some 0
    else (str_find_aux sub r).map (· + 1)

/-- Python `s.find(sub)`: index of the first occurrence, `-1` if absent. -/
def str_find (s sub : Str) : Int :=
  match str_find_aux sub s with
  | some n => (n : Int)
  | none => -1

/-- Whitespace for Python `str.lstrip()` / `str.isspace()`, restricted to the
code points below U+0100 (the inputs of this program are terminal text). -/
def py_isspace (c : Char) : Bool :=
  c = ' ' || c = '\t' || c = '\n' || c = '\r' || c = '\x0b' || c = '\x0c' ||
  c = '\x1c' || c = '\x1d' || c = '\x1e' || c = '\x1f' || c = '\x85'

/-- Python `s.lstrip()`. -/
def lstrip (s : Str) : Str :=
  s.dropWhile py_isspace

/-! ## SGR escape sequences

`re.sub('\033\[[0-9;]*m', '', ansistr)` removes every SGR escape sequence:
ESC, `[`, a run of digits and semicolons, `m`.  The scan below mirrors the
left-to-right, non-overlapping matching of `re.sub`: at each position the
pattern is tried (the run of parameter characters is maximal, as the
character class excludes `m`, so no backtracking arises), and on failure the
scan advances one character. -/

/-- Characters allowed in the parameter part of an SGR sequence. -/
def sgr_param (c : Char) : Bool :=
  c.isDigit || c = ';'

/-- Length of the SGR escape sequence starting at the head of `s`, if any. -/
def sgr_len (s : Str) : Option Nat :=
  match s with
  | '\x1b' :: '[' :: rest =>
    if rest.get? ((rest.takeWhile sgr_param).length) = some 'm' then
      some ((rest.takeWhile sgr_param).length + 3)
    else none
  | _ => none

/-- Fueled scan removing SGR sequences; the fuel, instantiated with the
length of the string, is sufficient because every step consumes at least one
character (a matched sequence has length at least three). -/
def strip_ansi_go (fuel : Nat) (s : Str) : Str :=
  match fuel, s with
  | _, [] => []
  | 0, s => s
  | fuel + 1, c :: r =>
    match sgr_len (c :: r) with
    | some n => strip_ansi_go fuel (List.drop n (c :: r))
    | none => c :: strip_ansi_go fuel r

/-- `re.sub('\033\[[0-9;]*m', '', s)`: the string without its SGR escape
sequences — the `clearstr` of `wrap_ansicode`. -/
def strip_ansi (s : Str) : Str :=
  strip_ansi_go s.length s

/-- The same scan, collecting the matched SGR escape sequences in order. -/
def extract_escapes_go (fuel : Nat) (s : Str) : List Str :=
  match fuel, s with
  | _, [] => []
  | 0, _ => []
  | fuel + 1, c :: r =>
    match sgr_len (c :: r) with
    | some n => List.take n (c :: r) :: extract_escapes_go fuel (List.drop n (c :: r))
    | none => extract_escapes_go fuel r

/-- The ordered list of SGR escape sequences occurring in `s`. -/
def extract_escapes (s : Str) : List Str :=
  extract_escapes_go s.length s

/-! ## textwrap: tab expansion -/

/-- CPython `str.expandtabs(tabsize)`: the column counter advances by one per
character, resets on `\n` and `\r`, and a tab becomes the spaces up to the
next tab stop. -/
def expandtabs_go (tabsize : Nat) (col : Nat) : Str → Str
  | [] => []
  | c :: r =>
    if c = '\t' then
      if 0 < tabsize then
        List.replicate (tabsize - col % tabsize) ' ' ++
          expandtabs_go tabsize (col + (tabsize - col % tabsize)) r
      else expandtabs_go tabsize col r
    else if c = '\n' || c = '\r' then c :: expandtabs_go tabsize 0 r
    else c :: expandtabs_go tabsize (col + 1) r

/-- `TextWrapper._munge_whitespace` with the options used by
`wrap_ansicode`: `expand_tabs=True` (tabsize 8), `replace_whitespace=False`. -/
def munge_whitespace (s : Str) : Str :=
  expandtabs_go 8 0 s

/-! ## textwrap: the `wordsep_re` splitter

`textwrap._split` with `break_on_hyphens=True` splits on `wordsep_re`:

  whitespace runs `[\t\n\x0b\x0c\r ]+`,
  em-dashes `(?<=wp)-{2,}(?=\w)`,
  and words `wp+?` terminated by a hyphenated-word break, by end of word
  `(?=ws|\Z)`, or by a following em-dash `(?<=wp)(?=-{2,}\w)`,

with `wp = [\w!"\'&.,?]` and the letter class `lt = [^\d\W]`.  Text matched
by no alternative (e.g. `:`, `/`, parentheses, escape characters) stays in
the gaps between matches and becomes chunks of its own, exactly as with
`re.split` on a pattern whose single group is the whole match, followed by
the removal of empty strings. -/

/-- The whitespace class of `textwrap` (`_whitespace = '\t\n\x0b\x0c\r '`). -/
def tw_whitespace (c : Char) : Bool :=
  c = '\t' || c = '\n' || c = '\x0b' || c = '\x0c' || c = '\r' || c = ' '

/-- `\w` of the `re` module, ASCII range. -/
def is_word_char (c : Char) : Bool :=
  c.isAlphanum || c = '_'

/-- The letter class `[^\d\W]` (word characters that are not digits). -/
def is_letter (c : Char) : Bool :=
  c.isAlpha || c = '_'

/-- The double-quote character (U+0022). -/
def dquote : Char := Char.ofNat 34

/-- The apostrophe character (U+0027). -/
def squote : Char := Char.ofNat 39

/-- The word-punctuation class `[\w!"\'&.,?]` of `wordsep_re`. -/
def word_punct (c : Char) : Bool :=
  is_word_char c || c = '!' || c = dquote || c = squote || c = '&' ||
  c = '.' || c = ',' || c = '?'

/-- Test a predicate under `Option`: false for `none`. -/
def opt_is (p : Char → Bool) (o : Option Char) : Bool :=
  match o with
  | some c => p c
  | none => false

/-- Length of the maximal prefix run satisfying `p`. -/
def run_count (p : Char → Bool) (s : Str) : Nat :=
  (s.takeWhile p).length

/-- Character at signed offset `i` from the current match start: nonnegative
offsets read the remaining text `s`, negative offsets read the reversed
context `ctx` (the characters before the match start, for lookbehinds). -/
def char_at (ctx s : Str) (i : Int) : Option Char :=
  if 0 ≤ i then s.get? i.toNat else ctx.get? ((-i) - 1).toNat

/-- Hyphenated-word terminator of the word alternative: after `L` consumed
word-punctuation characters, consume a hyphen whose lookbehind is
`(?<=lt lt -)` or `(?<=lt - lt -)` and whose lookahead is `(?= lt -? lt)`. -/
def term_hyphen (ctx s : Str) (L : Nat) : Bool :=
  (char_at ctx s (L : Int) = some '-') &&
  ((opt_is is_letter (char_at ctx s ((L : Int) - 1)) &&
      opt_is is_letter (char_at ctx s ((L : Int) - 2))) ||
   (opt_is is_letter (char_at ctx s ((L : Int) - 1)) &&
      (char_at ctx s ((L : Int) - 2) = some '-') &&
      opt_is is_letter (char_at ctx s ((L : Int) - 3)))) &&
  (opt_is is_letter (s.get? (L + 1)) &&
    (opt_is is_letter (s.get? (L + 2)) ||
     ((s.get? (L + 2) = some '-') && opt_is is_letter (s.get? (L + 3)))))

/-- End-of-word terminator `(?=ws|\Z)` after `L` consumed characters. -/
def term_end (s : Str) (L : Nat) : Bool :=
  match s.get? L with
  | none => true
  | some c => tw_whitespace c

/-- Em-dash terminator `(?<=wp)(?=-{2,}\w)` after `L` consumed characters
(the lookbehind holds as the consumed characters are word punctuation; only
the maximal hyphen run can be followed by a word character). -/
def term_emdash (s : Str) (L : Nat) : Bool :=
  let t := s.drop L
  2 ≤ run_count (fun c => c = '-') t &&
    opt_is is_word_char (t.get? (run_count (fun c => c = '-') t))

/-- Lazy expansion of `wp+?`: try the terminators at length `L`, then at
`L + 1`, …; the fuel, instantiated with the length of the maximal
word-punctuation run, bounds the remaining lengths to try. -/
def word_try_go (ctx s : Str) (fuel : Nat) (L : Nat) : Option Nat :=
  match fuel with
  | 0 => none
  | fuel + 1 =>
    if term_hyphen ctx s L then some (L + 1)
    else if term_end s L then some L
    else if term_emdash s L then some L
    else word_try_go ctx s fuel (L + 1)

/-- Match of the word alternative of `wordsep_re` at the current position. -/
def word_try (ctx s : Str) : Option Nat :=
  word_try_go ctx s (run_count word_punct s) 1

/-- Leftmost-position match of `wordsep_re` at the head of `s` (with `ctx`
the reversed text before it): the length of the match, if any.  The
alternatives are tried in the order of the pattern; their first characters
(whitespace, hyphen, word punctuation) are mutually exclusive. -/
def try_match : Str → Str → Option Nat
  | _, [] => none
  | ctx, c :: rest =>
    if tw_whitespace c then some (run_count tw_whitespace (c :: rest))
    else if c = '-' then
      if opt_is word_punct (ctx.get? 0) &&
          2 ≤ run_count (fun x => x = '-') (c :: rest) &&
          opt_is is_word_char ((c :: rest).get?
            (run_count (fun x => x = '-') (c :: rest))) then
        some (run_count (fun x => x = '-') (c :: rest))
      else none
    else if word_punct c then word_try ctx (c :: rest)
    else none

/-- Fueled splitting scan of `re.split(wordsep_re, ·)` followed by the
removal of empty strings: `ctx` is the reversed text already consumed,
`gapRev` the reversed pending gap (text matched by no alternative).  The
fuel, instantiated with the length of the string, is sufficient because a
match consumes at least one character; the fuel-exhausted value keeps the
concatenation of the pieces equal to the input. -/
def wordsep_go (fuel : Nat) (ctx gapRev s : Str) : List Str :=
  match fuel, s with
  | _, [] => if gapRev = [] then [] else [gapRev.reverse]
  | 0, s => (if gapRev = [] then [] else [gapRev.reverse]) ++ [s]
  | fuel + 1, c :: rest =>
    match try_match ctx (c :: rest) with
    | some n =>
      (if gapRev = [] then [] else [gapRev.reverse]) ++
        ((c :: rest).take n ::
          wordsep_go fuel (((c :: rest).take n).reverse ++ ctx) [] ((c :: rest).drop n))
    | none => wordsep_go fuel (c :: ctx) (c :: gapRev) rest

/-- `textwrap._split` with `break_on_hyphens=True`: the chunks of the text. -/
def wordsep_split (s : Str) : List Str :=
  wordsep_go s.length [] [] s

/-! ## textwrap: greedy chunk filling (`_wrap_chunks`) -/

/-- The inner greedy loop of `_wrap_chunks`: keep taking chunks while the
current line stays within `width`. -/
def fill_greedy (width : Nat) (cur : Str) : List Str → Str × List Str
  | [] => (cur, [])
  | c :: rest =>
    if cur.length + c.length ≤ width then fill_greedy width (cur ++ c) rest
    else (cur, c :: rest)

/-- One line of `_wrap_chunks` with `break_long_words=False` and
`drop_whitespace=False`: greedy filling, then `_handle_long_word`, which
puts a chunk longer than `width` alone on the line only when the line is
still empty. -/
def fill_line (width : Nat) (chunks : List Str) : Str × List Str :=
  match fill_greedy width [] chunks with
  | (cur, []) => (cur, [])
  | (cur, c :: rest) =>
    if cur = [] && width < c.length then (c, rest) else (cur, c :: rest)

/-- Fueled outer loop of `_wrap_chunks`; the fuel, instantiated with the
number of chunks, is sufficient because every line consumes at least one
chunk; the fuel-exhausted value keeps concatenation and chunk membership. -/
def wrap_chunks_go (fuel : Nat) (width : Nat) (chunks : List Str) : List Str :=
  match fuel, chunks with
  | _, [] => []
  | 0, chunks => chunks
  | fuel + 1, c :: rest =>
    match fill_line width (c :: rest) with
    | (line, rest2) => line :: wrap_chunks_go fuel width rest2

/-- `TextWrapper._wrap_chunks` with the option set of `wrap_ansicode`. -/
def wrap_chunks (width : Nat) (chunks : List Str) : List Str :=
  wrap_chunks_go chunks.length width chunks

/-- `textwrap.wrap(text, width=w, replace_whitespace=False,
drop_whitespace=False, break_long_words=False)` (faithful for `0 < w`, the
only widths the program calls it with; CPython raises for `w ≤ 0`). -/
def textwrap_wrap (width : Nat) (text : Str) : List Str :=
  wrap_chunks width (wordsep_split (munge_whitespace text))

/-! ## wrap_ansicode -/

/-- Level of a diagnostic log record. -/
inductive LogLevel where
  | debug
  | warning
  | info
deriving DecidableEq, Repr

/-- Structured content of the log records emitted by `wrap_ansicode`. -/
inductive LogEvent where
  | wrappingLong (clearLen : Nat) (ansicodes : Int)
  | hardWrap (cutpoint : Int) (line : Str) (zone : Str) (level : LogLevel)
  | wrappedInto (nlines : Nat) (target : Nat)
deriving DecidableEq, Repr

/-- State of the re-synchronization loop of `wrap_ansicode`: the remaining
escaped text, the running count `ansicodes`, the emitted lines, and the log. -/
structure WrapSt where
  ansistr : Str
  ansicodes : Int
  lines : List Str
  logs : List LogEvent
deriving DecidableEq, Repr

/-- The search zone `ansistr[cutleft:cutright]` of the loop body:
`cutleft = column_width - match_width * 3`,
`cutright = column_width + ansicodes`. -/
def search_zone (column_width match_width ansicodes : Int) (ansistr : Str) : Str :=
  pySlice ansistr (column_width - match_width * 3) (column_width + ansicodes)

/-- The anchor `line[(match_width * -1):]` searched inside the zone. -/
def wrap_anchor (match_width : Int) (line : Str) : Str :=
  pySliceFrom line (match_width * (-1))

/-- One iteration of the `for line in clearstr_wrapped` loop of
`wrap_ansicode`: find the anchor in the search zone, fall back to a hard cut
at `column_width` when absent (logging the anomaly at warning level if the
zone is non-empty, debug level otherwise), split the escaped text at the cut
point, emit the left part without its leading whitespace, and update the
running `ansicodes` count. -/
def wrap_step (column_width match_width : Int) (st : WrapSt) (line : Str) : WrapSt :=
  let cutleft := column_width - match_width * 3
  let matchZone := search_zone column_width match_width st.ansicodes st.ansistr
  let matchStart := str_find matchZone (wrap_anchor match_width line)
  let cutpoint := if matchStart < 0 then column_width
    else cutleft + matchStart + match_width
  let logs2 := if matchStart < 0 then
      st.logs ++ [LogEvent.hardWrap cutpoint line matchZone
        (if matchZone = [] then LogLevel.debug else LogLevel.warning)]
    else st.logs
  let leftstr := lstrip (pySliceTo st.ansistr cutpoint)
  { ansistr := pySliceFrom st.ansistr cutpoint
    ansicodes := st.ansicodes - ((leftstr.length : Int) - (line.length : Int))
    lines := st.lines ++ [leftstr]
    logs := logs2 }

/-- `wrap_ansicode(ansistr, column_width, match_width)` with the diagnostic
log made explicit: the function receives the current log and returns the
wrapped lines together with the extended log. -/
def wrap_ansicode_log (ansistr : Str) (column_width match_width : Int)
    (logs0 : List LogEvent) : List Str × List LogEvent :=
  let clearstr := strip_ansi ansistr
  if 0 < column_width ∧ column_width < (clearstr.length : Int) then
    let clearstr_wrapped := textwrap_wrap column_width.toNat clearstr
    let ansicodes : Int := (ansistr.length : Int) - (clearstr.length : Int)
    let st0 : WrapSt :=
      ⟨ansistr, ansicodes, [], logs0 ++ [LogEvent.wrappingLong clearstr.length ansicodes]⟩
    let stF := List.foldl (wrap_step column_width match_width) st0 clearstr_wrapped
    (stF.lines, stF.logs ++ [LogEvent.wrappedInto stF.lines.length clearstr_wrapped.length])
  else ([ansistr], logs0)

/-- The wrapped lines returned by `wrap_ansicode`. -/
def wrap_ansicode (ansistr : Str) (column_width match_width : Int) : List Str :=
  (wrap_ansicode_log ansistr column_width match_width []).1

/-- The search window as the specification words it: spanning from
`columnWidth - 3*matchWindow` to `columnWidth + escapeCharsSoFar` characters
into the remaining escaped text (indices read as character counts from the
left end, clamped to the bounds of the string). -/
def spec_search_window (column_width match_width ansicodes : Int) (s : Str) : Str :=
  (s.take (column_width + ansicodes).toNat).drop (column_width - match_width * 3).toNat

/-! ## Basic lemmas on the Python primitives -/

theorem pyIdx_zero (len : Nat) : pyIdx len 0 = 0 := by
  unfold pyIdx
  norm_num

theorem pyIdx_len (len : Nat) : pyIdx len (len : Int) = len := by
  unfold pyIdx
  norm_num

/-- A prefix slice and the matching suffix slice partition the string, for
any integer cut index. -/
theorem pySliceTo_append_pySliceFrom (s : Str) (k : Int) :
    pySliceTo s k ++ pySliceFrom s k = s := by
  unfold pySliceTo pySliceFrom pySlice
  rw [pyIdx_zero, pyIdx_len, List.drop_zero, List.take_length, List.take_append_drop]

/-- The head of a left-stripped string is not whitespace. -/
theorem head_lstrip_not_space (s : Str) (c : Char)
    (h : (lstrip s).head? = some c) : py_isspace c = false := by
  unfold lstrip at h
  induction s with
  | nil => simp at h
  | cons a r ih =>
    by_cases ha : py_isspace a
    · simp [List.dropWhile_cons, ha] at h
      exact ih h
    · simp [List.dropWhile_cons, ha] at h
      simp [← h, ha]

/-! ## Lemmas on the wordsep splitter -/

/-- The pieces produced by the splitting scan concatenate to the pending gap
followed by the remaining text. -/
theorem wordsep_go_join (fuel : Nat) :
    ∀ (ctx gapRev s : Str),
      (wordsep_go fuel ctx gapRev s).flatten = gapRev.reverse ++ s := by
  induction fuel with
  | zero =>
    intro ctx gapRev s
    cases s with
    | nil =>
      by_cases h : gapRev = [] <;> simp [wordsep_go, h]
    | cons c rest =>
      by_cases h : gapRev = [] <;> simp [wordsep_go, h]
  | succ fuel ih =>
    intro ctx gapRev s
    cases s with
    | nil =>
      by_cases h : gapRev = [] <;> simp [wordsep_go, h]
    | cons c rest =>
      rw [wordsep_go]
      cases htm : try_match ctx (c :: rest) with
      | some n =>
        by_cases h : gapRev = [] <;>
          simp [h, ih, List.take_append_drop]
      | none =>
        rw [ih]
        simp

/-- Splitting preserves the text: the chunks concatenate to the input. -/
theorem wordsep_split_join (s : Str) : (wordsep_split s).flatten = s := by
  unfold wordsep_split
  rw [wordsep_go_join]
  simp

/-- A non-empty text splits into at least one chunk. -/
theorem wordsep_split_ne (s : Str) (h : s ≠ []) : wordsep_split s ≠ [] := by
  intro hc
  apply h
  have := wordsep_split_join s
  rw [hc] at this
  simpa using this.symm

/-! ## Lemmas on the greedy chunk filling -/

/-- The greedy loop takes a prefix of the chunk list and appends its
concatenation to the current line. -/
theorem fill_greedy_decomp (width : Nat) :
    ∀ (chunks : List Str) (cur : Str),
      ∃ taken, chunks = taken ++ (fill_greedy width cur chunks).2 ∧
        (fill_greedy width cur chunks).1 = cur ++ taken.flatten := by
  intro chunks
  induction chunks with
  | nil =>
    intro cur
    exact ⟨[], by simp [fill_greedy]⟩
  | cons c rest ih =>
    intro cur
    by_cases h : cur.length + c.length ≤ width
    · obtain ⟨taken, h1, h2⟩ := ih (cur ++ c)
      refine ⟨c :: taken, ?_, ?_⟩
      · simpa [fill_greedy, h] using h1
      · simpa [fill_greedy, h, List.append_assoc] using h2
    · exact ⟨[], by simp [fill_greedy, h]⟩

/-- The greedy loop never grows the line past `width` when it starts within
`width`. -/
theorem fill_greedy_bound (width : Nat) :
    ∀ (chunks : List Str) (cur : Str), cur.length ≤ width →
      (fill_greedy width cur chunks).1.length ≤ width := by
  intro chunks
  induction chunks with
  | nil => intro cur h; simpa [fill_greedy] using h
  | cons c rest ih =>
    intro cur h
    by_cases hc : cur.length + c.length ≤ width
    · rw [fill_greedy, if_pos hc]
      exact ih (cur ++ c) (by simpa using hc)
    · simpa [fill_greedy, hc] using h

/-- A line assembled by `fill_line` is the concatenation of a prefix of the
chunks, the rest being returned. -/
theorem fill_line_decomp (width : Nat) (chunks : List Str) :
    ∃ taken, chunks = taken ++ (fill_line width chunks).2 ∧
      (fill_line width chunks).1 = taken.flatten := by
  obtain ⟨taken, h1, h2⟩ := fill_greedy_decomp width chunks []
  unfold fill_line
  cases hg : fill_greedy width [] chunks with
  | mk cur rest =>
    rw [hg] at h1 h2
    simp only at h1 h2
    cases rest with
    | nil => exact ⟨taken, by simpa using h1, by simpa using h2⟩
    | cons c rest2 =>
      by_cases hl : cur = [] && width < c.length
      · refine ⟨taken ++ [c], ?_, ?_⟩
        · simp [hl, h1]
        · have hcur : cur = [] := by
            revert hl
            by_cases hx : cur = [] <;> simp [hx]
          simp only [hl, if_pos]
          have : taken.flatten = [] := by simpa [hcur] using h2.symm
          simp [this]
      · exact ⟨taken, by simpa [hl] using h1, by simpa [hl] using h2⟩

/-- A line assembled by `fill_line` either fits in `width` or is a single
chunk (the over-long-word case of `_handle_long_word`). -/
theorem fill_line_bound_or_mem (width : Nat) (chunks : List Str) :
    (fill_line width chunks).1.length ≤ width ∨
      (fill_line width chunks).1 ∈ chunks := by
  unfold fill_line
  have hb := fill_greedy_bound width chunks [] (by simp)
  have hd := fill_greedy_decomp width chunks []
  cases hg : fill_greedy width [] chunks with
  | mk cur rest =>
    rw [hg] at hb hd
    simp only at hb hd
    cases rest with
    | nil => exact Or.inl hb
    | cons c rest2 =>
      by_cases hl : cur = [] && width < c.length
      · right
        obtain ⟨taken, h1, _⟩ := hd
        simp only [hl, if_pos]
        rw [h1]
        simp
      · exact Or.inl (by simpa [hl] using hb)

/-- Filling one line consumes at least one chunk. -/
theorem fill_line_consumes (width : Nat) (c : Str) (rest : List Str) :
    (fill_line width (c :: rest)).2.length ≤ rest.length := by
  unfold fill_line
  by_cases h : c.length ≤ width
  · have hgo : fill_greedy width [] (c :: rest) = fill_greedy width c rest := by
      rw [fill_greedy]
      simp [h]
    rw [hgo]
    have hlen : ∀ (chs : List Str) (cur : Str),
        (fill_greedy width cur chs).2.length ≤ chs.length := by
      intro chs
      induction chs with
      | nil => intro cur; simp [fill_greedy]
      | cons x xs ih =>
        intro cur
        by_cases hx : cur.length + x.length ≤ width
        · rw [fill_greedy, if_pos hx]
          exact le_trans (ih (cur ++ x)) (by simp)
        · simp [fill_greedy, hx]
    cases hg : fill_greedy width c rest with
    | mk cur r2 =>
      have := hlen rest c
      rw [hg] at this
      simp only at this
      cases r2 with
      | nil => simp only [fill_line]; exact this
      | cons d r3 =>
        by_cases hl : cur = [] && width < d.length
        · simp only [hl, if_pos]
          simp only [List.length_cons] at this
          omega
        · simpa [hl] using this
  · have hgo : fill_greedy width [] (c :: rest) = ([], c :: rest) := by
      rw [fill_greedy]
      simp [h]
    rw [hgo]
    simp [Nat.lt_of_not_le h]

/-! ## Lemmas on the chunk wrapping loop -/

/-- The wrapped lines concatenate to the concatenation of the chunks. -/
theorem wrap_chunks_go_flatten (width : Nat) (fuel : Nat) :
    ∀ (chunks : List Str),
      (wrap_chunks_go fuel width chunks).flatten = chunks.flatten := by
  induction fuel with
  | zero =>
    intro chunks
    cases chunks <;> simp [wrap_chunks_go]
  | succ fuel ih =>
    intro chunks
    cases chunks with
    | nil => simp [wrap_chunks_go]
    | cons c rest =>
      rw [wrap_chunks_go]
      obtain ⟨taken, h1, h2⟩ := fill_line_decomp width (c :: rest)
      cases hf : fill_line width (c :: rest) with
      | mk line rest2 =>
        rw [hf] at h1 h2
        simp only at h1 h2
        simp only [List.flatten_cons, ih rest2, h1, h2, List.flatten_append]

/-- Every wrapped line either fits in `width` or is one of the chunks. -/
theorem wrap_chunks_go_bound (width : Nat) (fuel : Nat) :
    ∀ (chunks : List Str) (l : Str), l ∈ wrap_chunks_go fuel width chunks →
      l.length ≤ width ∨ l ∈ chunks := by
  induction fuel with
  | zero =>
    intro chunks l hl
    cases chunks with
    | nil => simp [wrap_chunks_go] at hl
    | cons c rest => exact Or.inr (by simpa [wrap_chunks_go] using hl)
  | succ fuel ih =>
    intro chunks l hl
    cases chunks with
    | nil => simp [wrap_chunks_go] at hl
    | cons c rest =>
      rw [wrap_chunks_go] at hl
      obtain ⟨taken, h1, _⟩ := fill_line_decomp width (c :: rest)
      have hbm := fill_line_bound_or_mem width (c :: rest)
      cases hf : fill_line width (c :: rest) with
      | mk line rest2 =>
        rw [hf] at h1 hbm hl
        simp only at h1 hbm hl
        rcases List.mem_cons.mp hl with heq | hmem
        · subst heq
          exact hbm
        · rcases ih rest2 l hmem with hle | hin
          · exact Or.inl hle
          · exact Or.inr (by rw [h1]; exact List.mem_append_right _ hin)

/-- Wrapping a non-empty chunk list yields at least one line. -/
theorem wrap_chunks_go_ne (width : Nat) (fuel : Nat) (chunks : List Str)
    (h : chunks ≠ []) : wrap_chunks_go fuel width chunks ≠ [] := by
  cases fuel with
  | zero => cases chunks with
    | nil => exact absurd rfl h
    | cons c rest => simp [wrap_chunks_go]
  | succ fuel => cases chunks with
    | nil => exact absurd rfl h
    | cons c rest =>
      rw [wrap_chunks_go]
      cases hf : fill_line width (c :: rest) with
      | mk line rest2 => simp

/-! ## Lemmas on the full textwrap pipeline -/

/-- Tab expansion of a non-empty string is non-empty. -/
theorem expandtabs_go_ne (col : Nat) (c : Char) (r : Str) :
    expandtabs_go 8 col (c :: r) ≠ [] := by
  rw [expandtabs_go]
  by_cases ht : c = '\t'
  · have h8 : 0 < 8 := by norm_num
    have hrep : 8 - col % 8 ≠ 0 := by omega
    simp only [ht, if_pos rfl, if_pos h8]
    intro hc
    rcases List.append_eq_nil.mp hc with ⟨h1, _⟩
    exact hrep (by simpa using congrArg List.length h1)
  · by_cases hn : c = '\n' || c = '\r' <;> simp [ht, hn]

/-- The concatenation of the `textwrap.wrap` lines is the tab-expanded
input text. -/
theorem textwrap_wrap_flatten (width : Nat) (text : Str) :
    (textwrap_wrap width text).flatten = munge_whitespace text := by
  unfold textwrap_wrap wrap_chunks
  rw [wrap_chunks_go_flatten, wordsep_split_join]

/-- `textwrap.wrap` of a non-empty text yields at least one line. -/
theorem textwrap_wrap_ne (width : Nat) (text : Str) (h : text ≠ []) :
    textwrap_wrap width text ≠ [] := by
  unfold textwrap_wrap wrap_chunks
  apply wrap_chunks_go_ne
  apply wordsep_split_ne
  unfold munge_whitespace
  cases text with
  | nil => exact absurd rfl h
  | cons c r => exact expandtabs_go_ne 0 c r

/-- Every `textwrap.wrap` line fits in `width` or is a single unbreakable
chunk of the splitter. -/
theorem textwrap_wrap_bound (width : Nat) (text : Str) (l : Str)
    (h : l ∈ textwrap_wrap width text) :
    l.length ≤ width ∨ l ∈ wordsep_split (munge_whitespace text) := by
  unfold textwrap_wrap wrap_chunks at h
  exact wrap_chunks_go_bound width _ _ l h

/-! ## Lemmas on the re-synchronization loop -/

/-- One loop iteration reads only the remaining escaped text and the running
`ansicodes` count: the accumulated lines and log are extended on the right
and influence nothing else. -/
theorem wrap_step_frame (column_width match_width : Int) (line : Str)
    (a : Str) (k : Int) (ls : List Str) (G : List LogEvent) :
    wrap_step column_width match_width ⟨a, k, ls, G⟩ line =
      ⟨(wrap_step column_width match_width ⟨a, k, [], []⟩ line).ansistr,
       (wrap_step column_width match_width ⟨a, k, [], []⟩ line).ansicodes,
       ls ++ (wrap_step column_width match_width ⟨a, k, [], []⟩ line).lines,
       G ++ (wrap_step column_width match_width ⟨a, k, [], []⟩ line).logs⟩ := by
  unfold wrap_step
  by_cases h :
      str_find (search_zone column_width match_width k a)
        (wrap_anchor match_width line) < 0 <;>
    simp [h]

/-- The loop as a whole enjoys the same frame property as one iteration. -/
theorem wrap_fold_frame (column_width match_width : Int) :
    ∀ (lines : List Str) (a : Str) (k : Int) (ls : List Str)
      (G : List LogEvent),
      List.foldl (wrap_step column_width match_width) ⟨a, k, ls, G⟩ lines =
        ⟨(List.foldl (wrap_step column_width match_width) ⟨a, k, [], []⟩ lines).ansistr,
         (List.foldl (wrap_step column_width match_width) ⟨a, k, [], []⟩ lines).ansicodes,
         ls ++ (List.foldl (wrap_step column_width match_width) ⟨a, k, [], []⟩ lines).lines,
         G ++ (List.foldl (wrap_step column_width match_width) ⟨a, k, [], []⟩ lines).logs⟩ := by
  intro lines
  induction lines with
  | nil => intro a k ls G; simp
  | cons l rest ih =>
    intro a k ls G
    simp only [List.foldl_cons]
    rw [wrap_step_frame column_width match_width l a k ls G]
    cases hs : wrap_step column_width match_width ⟨a, k, [], []⟩ l with
    | mk a2 k2 ls2 G2 =>
      simp only
      rw [ih a2 k2 (ls ++ ls2) (G ++ G2), ih a2 k2 ls2 G2]
      simp [List.append_assoc]

/-- Each iteration emits exactly one line: the loop emits one line per
visible segment. -/
theorem wrap_fold_length (column_width match_width : Int) :
    ∀ (lines : List Str) (st : WrapSt),
      (List.foldl (wrap_step column_width match_width) st lines).lines.length =
        st.lines.length + lines.length := by
  intro lines
  induction lines with
  | nil => intro st; simp
  | cons l rest ih =>
    intro st
    simp only [List.foldl_cons, ih]
    unfold wrap_step
    by_cases h :
        str_find (search_zone column_width match_width st.ansicodes st.ansistr)
          (wrap_anchor match_width l) < 0 <;>
      simp [h, Nat.add_comm, Nat.add_assoc, Nat.add_left_comm]

/-- Every iteration cuts the remaining escaped text at some integer cut
point: the emitted line is the left part without its leading whitespace, the
new remaining text is the right part. -/
theorem wrap_step_cut (column_width match_width : Int) (st : WrapSt) (line : Str) :
    ∃ cut : Int,
      (wrap_step column_width match_width st line).lines =
        st.lines ++ [lstrip (pySliceTo st.ansistr cut)] ∧
      (wrap_step column_width match_width st line).ansistr =
        pySliceFrom st.ansistr cut := by
  unfold wrap_step
  by_cases h :
      str_find (search_zone column_width match_width st.ansicodes st.ansistr)
        (wrap_anchor match_width line) < 0
  · exact ⟨column_width, by simp [h], by simp [h]⟩
  · exact ⟨column_width - match_width * 3 +
      str_find (search_zone column_width match_width st.ansicodes st.ansistr)
        (wrap_anchor match_width line) + match_width, by simp [h], by simp [h]⟩

/-- Every line accumulated by the loop, beyond those already present, is the
left-stripped left part of a cut: its head is never whitespace. -/
theorem wrap_fold_no_leading_space (column_width match_width : Int) :
    ∀ (lines : List Str) (st : WrapSt),
      (∀ l ∈ st.lines, ∀ c, l.head? = some c → py_isspace c = false) →
      ∀ l ∈ (List.foldl (wrap_step column_width match_width) st lines).lines,
        ∀ c, l.head? = some c → py_isspace c = false := by
  intro lines
  induction lines with
  | nil => intro st h; simpa using h
  | cons x rest ih =>
    intro st h
    simp only [List.foldl_cons]
    apply ih
    intro l hl c hc
    obtain ⟨cut, hlines, _⟩ := wrap_step_cut column_width match_width st x
    rw [hlines] at hl
    rcases List.mem_append.mp hl with hmem | hnew
    · exact h l hmem c hc
    · have hleq : l = lstrip (pySliceTo st.ansistr cut) := by simpa using hnew
      rw [hleq] at hc
      exact head_lstrip_not_space _ c hc

/-- The lines accumulated by the loop are the left-stripped members of a
partition of the starting escaped text into consecutive raw slices, the
unconsumed remainder being the final `ansistr` of the state. -/
theorem wrap_fold_decomp (column_width match_width : Int) :
    ∀ (lines : List Str) (a : Str) (k : Int),
      ∃ (raws : List Str) (rem : Str),
        (List.foldl (wrap_step column_width match_width) ⟨a, k, [], []⟩ lines).lines =
          raws.map lstrip ∧
        raws.flatten ++ rem = a ∧
        (List.foldl (wrap_step column_width match_width) ⟨a, k, [], []⟩ lines).ansistr =
          rem := by
  intro lines
  induction lines with
  | nil =>
    intro a k
    exact ⟨[], a, by simp, by simp, by simp⟩
  | cons x rest ih =>
    intro a k
    simp only [List.foldl_cons]
    obtain ⟨cut, hlines, hansi⟩ :=
      wrap_step_cut column_width match_width ⟨a, k, [], []⟩ x
    cases hst : wrap_step column_width match_width ⟨a, k, [], []⟩ x with
    | mk a1 k1 ls1 G1 =>
      rw [hst] at hlines hansi
      simp only at hlines hansi
      obtain ⟨raws, rem, h1, h2, h3⟩ := ih a1 k1
      rw [wrap_fold_frame column_width match_width rest a1 k1 ls1 G1]
      refine ⟨pySliceTo a cut :: raws, rem, ?_, ?_, ?_⟩
      · simp only [List.map_cons, ← h1, hlines]
        simp
      · simp only [List.flatten_cons, List.append_assoc, h2, hansi]
        exact pySliceTo_append_pySliceFrom a cut
      · exact h3

/-- In the wrapping case, the output of `wrap_ansicode` is the left-stripped
image of a partition of the input line into consecutive raw slices, followed
by a dropped remainder. -/
theorem wrap_ansicode_decomp (s : Str) (column_width match_width : Int)
    (h1 : 0 < column_width)
    (h2 : column_width < ((strip_ansi s).length : Int)) :
    ∃ (raws : List Str) (rem : Str),
      wrap_ansicode s column_width match_width = raws.map lstrip ∧
      raws.flatten ++ rem = s := by
  unfold wrap_ansicode wrap_ansicode_log
  rw [if_pos ⟨h1, h2⟩]
  simp only [List.nil_append]
  obtain ⟨raws, rem, hl, hf, _⟩ :=
    wrap_fold_decomp column_width match_width
      (textwrap_wrap column_width.toNat (strip_ansi s)) s
      ((s.length : Int) - ((strip_ansi s).length : Int))
  rw [wrap_fold_frame column_width match_width _ s _ []
      [LogEvent.wrappingLong (strip_ansi s).length
        ((s.length : Int) - ((strip_ansi s).length : Int))]]
  exact ⟨raws, rem, by simpa using hl, hf⟩

/-- When wrapping is disabled or unnecessary, `wrap_ansicode` returns the
input as its only line. -/
theorem wrap_ansicode_passthrough (s : Str) (column_width match_width : Int)
    (h : ¬ (0 < column_width ∧ column_width < ((strip_ansi s).length : Int))) :
    wrap_ansicode s column_width match_width = [s] := by
  unfold wrap_ansicode wrap_ansicode_log
  simp [h]

/-- Number of lines returned in each branch of `wrap_ansicode`: one per
visible segment when wrapping, one otherwise. -/
theorem wrap_log_fst_length (s : Str) (column_width match_width : Int)
    (logs : List LogEvent) :
    (wrap_ansicode_log s column_width match_width logs).1.length =
      if 0 < column_width ∧ column_width < ((strip_ansi s).length : Int)
      then (textwrap_wrap column_width.toNat (strip_ansi s)).length
      else 1 := by
  by_cases h : 0 < column_width ∧ column_width < ((strip_ansi s).length : Int)
  · simp only [wrap_ansicode_log, if_pos h]
    rw [wrap_fold_length]
    simp
  · simp only [wrap_ansicode_log, if_neg h]
    simp [h]

/-- `wrap_ansicode` always returns at least one line. -/
theorem wrap_log_fst_ne (s : Str) (column_width match_width : Int)
    (logs : List LogEvent) :
    (wrap_ansicode_log s column_width match_width logs).1 ≠ [] := by
  have hlen := wrap_log_fst_length s column_width match_width logs
  intro hc
  rw [hc] at hlen
  by_cases h : 0 < column_width ∧ column_width < ((strip_ansi s).length : Int)
  · rw [if_pos h] at hlen
    have hne : strip_ansi s ≠ [] := by
      intro he
      rw [he] at h
      simp at h
      omega
    have := textwrap_wrap_ne column_width.toNat (strip_ansi s) hne
    exact this (List.length_eq_zero.mp hlen.symm)
  · rw [if_neg h] at hlen
    simp at hlen

/-! ## The claims -/

/-- C4 (confirmed): `wrap_ansicode(line, w)` returns the one-element list
`[line]` unchanged whenever `w ≤ 0` (wrapping disabled) or the visible
(escape-stripped) length of the line is at most `w`; in particular an
already-short line, or a line consisting only of an escape sequence, is
returned unchanged. -/
theorem c4_passthrough (s : Str) (column_width match_width : Int)
    (h : column_width ≤ 0 ∨ ((strip_ansi s).length : Int) ≤ column_width) :
    wrap_ansicode s column_width match_width = [s] := by
  apply wrap_ansicode_passthrough
  rintro ⟨h1, h2⟩
  rcases h with h | h <;> omega

/-- Witness for C4: a line consisting only of an escape sequence is returned
unchanged at positive width (its visible length is zero). -/
theorem c4_passthrough_witness :
    ((strip_ansi (("\x1b[1m").toList)).length : Int) ≤ 7 ∧
      wrap_ansicode (("\x1b[1m").toList) 7 5 = [("\x1b[1m").toList] :=
  ⟨by decide, c4_passthrough (("\x1b[1m").toList) 7 5 (Or.inr (by decide))⟩

/-- C5 (confirmed): `wrap_ansicode` is total — for every input string, every
integer column width and match width, and every incoming log, it returns a
(non-empty) list of lines; anchor-match failures are resolved inside the
loop body and never escalate (every operation of the embedding is total). -/
theorem c5_totality (s : Str) (column_width match_width : Int)
    (logs : List LogEvent) :
    (wrap_ansicode_log s column_width match_width logs).1 ≠ [] :=
  wrap_log_fst_ne s column_width match_width logs

/-- C10 (confirmed): the output is never empty; when wrapping occurs it has
exactly one line per segment of the word-wrapped visible text, and in the
pass-through case exactly one line. -/
theorem c10_line_count (s : Str) (column_width match_width : Int) :
    (wrap_ansicode s column_width match_width).length =
      (if 0 < column_width ∧ column_width < ((strip_ansi s).length : Int)
       then (textwrap_wrap column_width.toNat (strip_ansi s)).length
       else 1) ∧
    1 ≤ (wrap_ansicode s column_width match_width).length := by
  constructor
  · exact wrap_log_fst_length s column_width match_width []
  · have := wrap_log_fst_ne s column_width match_width []
    have hpos : 0 < (wrap_ansicode s column_width match_width).length :=
      List.length_pos.mpr this
    omega

/-- C9 (confirmed): `wrap_ansicode` is pure apart from diagnostic logging —
the returned lines do not depend on the pre-existing log state, and the only
effect on the log is appending a suffix determined by the inputs alone. -/
theorem c9_determinism (s : Str) (column_width match_width : Int)
    (logs : List LogEvent) :
    (wrap_ansicode_log s column_width match_width logs).1 =
      wrap_ansicode s column_width match_width ∧
    (wrap_ansicode_log s column_width match_width logs).2 =
      logs ++ (wrap_ansicode_log s column_width match_width []).2 := by
  by_cases h : 0 < column_width ∧ column_width < ((strip_ansi s).length : Int)
  · unfold wrap_ansicode
    simp only [wrap_ansicode_log, if_pos h, List.nil_append]
    rw [wrap_fold_frame column_width match_width _ s _ []
        (logs ++ [LogEvent.wrappingLong (strip_ansi s).length
          ((s.length : Int) - ((strip_ansi s).length : Int))]),
      wrap_fold_frame column_width match_width _ s _ []
        ([LogEvent.wrappingLong (strip_ansi s).length
          ((s.length : Int) - ((strip_ansi s).length : Int))])]
    simp [List.append_assoc]
  · unfold wrap_ansicode
    simp only [wrap_ansicode_log, if_neg h]
    simp

/-- C6 (confirmed): when the anchor (the last `matchWindow` characters of
the visible segment) is not found in the search zone, the loop falls back to
a hard cut at index `columnWidth` into the remaining escaped text and only
logs the anomaly — at warning level if the zone is non-empty, debug level
otherwise — then continues. -/
theorem c6_hard_cut (column_width match_width : Int) (st : WrapSt) (line : Str)
    (h : str_find (search_zone column_width match_width st.ansicodes st.ansistr)
        (wrap_anchor match_width line) < 0) :
    wrap_step column_width match_width st line =
      ⟨pySliceFrom st.ansistr column_width,
       st.ansicodes -
         (((lstrip (pySliceTo st.ansistr column_width)).length : Int) -
           (line.length : Int)),
       st.lines ++ [lstrip (pySliceTo st.ansistr column_width)],
       st.logs ++ [LogEvent.hardWrap column_width line
         (search_zone column_width match_width st.ansicodes st.ansistr)
         (if search_zone column_width match_width st.ansicodes st.ansistr = []
          then LogLevel.debug else LogLevel.warning)]⟩ := by
  unfold wrap_step
  simp [h]

/-- Witness for C6: in the wrapping of `"aaaa bbbb cccc"` at width 9 the
first segment's anchor `" bbbb"` is absent from the (non-empty) search zone
`"b"`, so the iteration hard-cuts at index 9 and logs a warning. -/
theorem c6_hard_cut_witness :
    str_find (search_zone 9 5 (0 : Int) (("aaaa bbbb cccc").toList))
        (wrap_anchor 5 (("aaaa bbbb").toList)) < 0 ∧
      wrap_step 9 5 ⟨("aaaa bbbb cccc").toList, 0, [], []⟩ (("aaaa bbbb").toList) =
        ⟨pySliceFrom (("aaaa bbbb cccc").toList) 9,
         0 - (((lstrip (pySliceTo (("aaaa bbbb cccc").toList) 9)).length : Int) -
           ((("aaaa bbbb").toList).length : Int)),
         [] ++ [lstrip (pySliceTo (("aaaa bbbb cccc").toList) 9)],
         [] ++ [LogEvent.hardWrap 9 (("aaaa bbbb").toList)
           (search_zone 9 5 (0 : Int) (("aaaa bbbb cccc").toList))
           (if search_zone 9 5 (0 : Int) (("aaaa bbbb cccc").toList) = []
            then LogLevel.debug else LogLevel.warning)]⟩ :=
  ⟨by decide, c6_hard_cut 9 5 ⟨("aaaa bbbb cccc").toList, 0, [], []⟩
    (("aaaa bbbb").toList) (by decide)⟩

/-- C8 (confirmed): each iteration cuts the remaining escaped text at an
integer cut point — the left part, with leading whitespace stripped, is the
emitted line (its trailing characters, escape codes included, kept verbatim)
and the right part becomes the remaining text of the next iteration; hence
in the wrapping case no output line begins with a whitespace character and
the output is the left-stripped image of consecutive slices of the input. -/
theorem c8_line_construction :
    (∀ (column_width match_width : Int) (st : WrapSt) (line : Str),
      ∃ cut : Int,
        pySliceTo st.ansistr cut ++ pySliceFrom st.ansistr cut = st.ansistr ∧
        (wrap_step column_width match_width st line).lines =
          st.lines ++ [lstrip (pySliceTo st.ansistr cut)] ∧
        (wrap_step column_width match_width st line).ansistr =
          pySliceFrom st.ansistr cut) ∧
    (∀ (s : Str) (column_width match_width : Int),
      0 < column_width → column_width < ((strip_ansi s).length : Int) →
      (∀ l ∈ wrap_ansicode s column_width match_width,
        ∀ c, l.head? = some c → py_isspace c = false) ∧
      ∃ (raws : List Str) (rem : Str),
        wrap_ansicode s column_width match_width = raws.map lstrip ∧
        raws.flatten ++ rem = s) := by
  constructor
  · intro column_width match_width st line
    obtain ⟨cut, h1, h2⟩ := wrap_step_cut column_width match_width st line
    exact ⟨cut, pySliceTo_append_pySliceFrom st.ansistr cut, h1, h2⟩
  · intro s column_width match_width h1 h2
    refine ⟨?_, wrap_ansicode_decomp s column_width match_width h1 h2⟩
    intro l hl c hc
    have hcond : 0 < column_width ∧ column_width < ((strip_ansi s).length : Int) :=
      ⟨h1, h2⟩
    unfold wrap_ansicode wrap_ansicode_log at hl
    rw [if_pos hcond] at hl
    simp only at hl
    exact wrap_fold_no_leading_space column_width match_width _ _
      (by intro x hx; simp at hx) l hl c hc

/-- Witness for C8: applied to the wrapping of `"aaaa bbbb cccc"` at width 9,
whose second output line `"ccc"` starts with the non-whitespace `'c'`. -/
theorem c8_line_construction_witness :
    (∃ cut : Int,
      pySliceTo (("aaaa bbbb cccc").toList) cut ++
          pySliceFrom (("aaaa bbbb cccc").toList) cut =
        ("aaaa bbbb cccc").toList ∧
      (wrap_step 9 5 ⟨("aaaa bbbb cccc").toList, 0, [], []⟩
          (("aaaa bbbb").toList)).lines =
        [] ++ [lstrip (pySliceTo (("aaaa bbbb cccc").toList) cut)] ∧
      (wrap_step 9 5 ⟨("aaaa bbbb cccc").toList, 0, [], []⟩
          (("aaaa bbbb").toList)).ansistr =
        pySliceFrom (("aaaa bbbb cccc").toList) cut) ∧
    ((∀ l ∈ wrap_ansicode (("aaaa bbbb cccc").toList) 9 5,
        ∀ c, l.head? = some c → py_isspace c = false) ∧
      ∃ (raws : List Str) (rem : Str),
        wrap_ansicode (("aaaa bbbb cccc").toList) 9 5 = raws.map lstrip ∧
        raws.flatten ++ rem = ("aaaa bbbb cccc").toList) :=
  ⟨c8_line_construction.1 9 5 ⟨("aaaa bbbb cccc").toList, 0, [], []⟩
      (("aaaa bbbb").toList),
   c8_line_construction.2 (("aaaa bbbb cccc").toList) 9 5
      (by decide) (by decide)⟩

/-- Taking at most the length is the same as taking. -/
theorem take_min_length (l : Str) (n : Nat) : l.take (min n l.length) = l.take n := by
  rcases Nat.le_total n l.length with h | h
  · rw [min_eq_left h]
  · rw [min_eq_right h, List.take_length, List.take_of_length_le h]

/-- Dropping at most the length is the same as dropping. -/
theorem drop_min_length (l : Str) (n : Nat) : l.drop (min n l.length) = l.drop n := by
  rcases Nat.le_total n l.length with h | h
  · rw [min_eq_left h]
  · rw [min_eq_right h, List.drop_length, List.drop_eq_nil_of_le h]

/-- A Python slice with nonnegative bounds is the take-then-drop slice of
the specification reading. -/
theorem pySlice_nonneg (s : Str) (a b : Int) (ha : 0 ≤ a) (hb : 0 ≤ b) :
    pySlice s a b = (s.take b.toNat).drop a.toNat := by
  unfold pySlice pyIdx
  rw [if_neg (by omega : ¬ a < 0), if_neg (by omega : ¬ b < 0), take_min_length]
  rcases Nat.le_total a.toNat s.length with h | h
  · rw [min_eq_left h]
  · rw [min_eq_right h]
    have ht : (s.take b.toNat).length ≤ s.length := by
      simp only [List.length_take]
      omega
    rw [List.drop_eq_nil_of_le ht, List.drop_eq_nil_of_le (le_trans ht h)]

/-- C7 counterexample: at `columnWidth = 9`, `matchWindow = 5` the window
start `columnWidth - 3*matchWindow = -6` is negative, and the code's Python
slice (resolved from the end of the string) differs from the window the
claim describes: the code searches `"b"`, the described window is
`"aaaa bbbb"`. -/
theorem c7_counterexample :
    search_zone 9 5 0 (("aaaa bbbb cccc").toList) ≠
      spec_search_window 9 5 0 (("aaaa bbbb cccc").toList) := by
  decide

/-- C7 (corrected): when the window bounds `columnWidth - 3*matchWindow` and
`columnWidth + ansicodes` are nonnegative (`ansicodes` being the running
escape-character count of the loop), the code's search window is exactly the
described span, the anchor is the last `matchWindow` characters of the
segment, and a successful search at offset `m` cuts the remaining text at
`windowStart + m + matchWindow`. -/
theorem c7_cut_arithmetic (column_width match_width : Int) (st : WrapSt)
    (line : Str)
    (hleft : 0 ≤ column_width - match_width * 3)
    (hright : 0 ≤ column_width + st.ansicodes) :
    search_zone column_width match_width st.ansicodes st.ansistr =
      spec_search_window column_width match_width st.ansicodes st.ansistr ∧
    (0 < match_width → match_width ≤ (line.length : Int) →
      wrap_anchor match_width line =
        line.drop (line.length - match_width.toNat)) ∧
    (0 ≤ str_find (search_zone column_width match_width st.ansicodes st.ansistr)
          (wrap_anchor match_width line) →
      (wrap_step column_width match_width st line).ansistr =
        pySliceFrom st.ansistr (column_width - match_width * 3 +
          str_find (search_zone column_width match_width st.ansicodes st.ansistr)
            (wrap_anchor match_width line) + match_width) ∧
      (wrap_step column_width match_width st line).lines =
        st.lines ++ [lstrip (pySliceTo st.ansistr (column_width - match_width * 3 +
          str_find (search_zone column_width match_width st.ansicodes st.ansistr)
            (wrap_anchor match_width line) + match_width))]) := by
  refine ⟨?_, ?_, ?_⟩
  · unfold search_zone spec_search_window
    exact pySlice_nonneg st.ansistr _ _ hleft hright
  · intro hmw hlen
    unfold wrap_anchor pySliceFrom pySlice
    rw [pyIdx_len, List.take_length]
    have hneg : (match_width * (-1) : Int) < 0 := by omega
    unfold pyIdx
    rw [if_pos hneg]
    congr 1
    omega
  · intro hfind
    have h : ¬ str_find (search_zone column_width match_width st.ansicodes st.ansistr)
        (wrap_anchor match_width line) < 0 := by omega
    unfold wrap_step
    constructor <;> simp [h]

/-- Witness for C7: an in-range instance (`columnWidth = 15`,
`matchWindow = 5`, no escape characters, a 20-character remaining text,
anchor found at offset 0). -/
theorem c7_cut_arithmetic_witness :
    (0 : Int) ≤ 15 - 5 * 3 ∧ (0 : Int) ≤ 15 + 0 ∧ (0 : Int) < 5 ∧
      (5 : Int) ≤ ((("aaaaa").toList).length : Int) ∧
      (0 : Int) ≤ str_find (search_zone 15 5 0 (("aaaaaaaaaaaaaaaaaaaa").toList))
        (wrap_anchor 5 (("aaaaa").toList)) ∧
      (search_zone 15 5 0 (("aaaaaaaaaaaaaaaaaaaa").toList) =
        spec_search_window 15 5 0 (("aaaaaaaaaaaaaaaaaaaa").toList) ∧
      wrap_anchor 5 (("aaaaa").toList) =
        (("aaaaa").toList).drop ((("aaaaa").toList).length - (5 : Int).toNat) ∧
      (wrap_step 15 5 ⟨("aaaaaaaaaaaaaaaaaaaa").toList, 0, [], []⟩
          (("aaaaa").toList)).ansistr =
        pySliceFrom (("aaaaaaaaaaaaaaaaaaaa").toList) (15 - 5 * 3 +
          str_find (search_zone 15 5 0 (("aaaaaaaaaaaaaaaaaaaa").toList))
            (wrap_anchor 5 (("aaaaa").toList)) + 5) ∧
      (wrap_step 15 5 ⟨("aaaaaaaaaaaaaaaaaaaa").toList, 0, [], []⟩
          (("aaaaa").toList)).lines =
        [] ++ [lstrip (pySliceTo (("aaaaaaaaaaaaaaaaaaaa").toList) (15 - 5 * 3 +
          str_find (search_zone 15 5 0 (("aaaaaaaaaaaaaaaaaaaa").toList))
            (wrap_anchor 5 (("aaaaa").toList)) + 5))]) := by
  have h := c7_cut_arithmetic 15 5 ⟨("aaaaaaaaaaaaaaaaaaaa").toList, 0, [], []⟩
    (("aaaaa").toList) (by decide) (by decide)
  exact ⟨by decide, by decide, by decide, by decide, by decide,
    h.1, h.2.1 (by decide) (by decide),
    (h.2.2 (by decide)).1, (h.2.2 (by decide)).2⟩

/-- C1 counterexample: wrapping
`"AAAA QQQQQ BBB QQQQQ CCCCCCCCCCCCC ZZZZZ"` (40 visible characters, no
escape codes) at width 20 emits the 29-character line
`"BBB QQQQQ CCCCCCCCCCCCC ZZZZZ"` — longer than the width although it is
not a single unbreakable word (it is not one of the splitter's chunks): the
anchor `"QQQQQ"` of the first segment matches too early in the search zone,
the cut drifts, and the enlarged zone of the second segment allows an
over-long cut. -/
theorem c1_counterexample :
    wrap_ansicode (("AAAA QQQQQ BBB QQQQQ CCCCCCCCCCCCC ZZZZZ").toList) 20 5 =
      [("AAAA QQQQQ").toList, ("BBB QQQQQ CCCCCCCCCCCCC ZZZZZ").toList] ∧
    20 < (strip_ansi (("BBB QQQQQ CCCCCCCCCCCCC ZZZZZ").toList)).length ∧
    ¬ ("BBB QQQQQ CCCCCCCCCCCCC ZZZZZ").toList ∈
      wordsep_split (munge_whitespace
        (strip_ansi (("AAAA QQQQQ BBB QQQQQ CCCCCCCCCCCCC ZZZZZ").toList))) := by
  refine ⟨by decide, by decide, by decide⟩

/-- C1 (corrected): the width bound holds for the intermediate word-wrap of
the escape-stripped text — every segment produced by `textwrap.wrap` fits in
`columnWidth` unless it is a single unbreakable chunk on a line of its own —
but, as the counterexample shows, the emitted lines of `wrap_ansicode` can
exceed the bound when anchor matching misfires. -/
theorem c1_width_bound (s : Str) (column_width : Int) (l : Str)
    (h : l ∈ textwrap_wrap column_width.toNat (strip_ansi s)) :
    l.length ≤ column_width.toNat ∨
      l ∈ wordsep_split (munge_whitespace (strip_ansi s)) :=
  textwrap_wrap_bound column_width.toNat (strip_ansi s) l h

/-- Witness for C1: the first wrapped segment of `"aaaa bbbb cccc"` at
width 9. -/
theorem c1_width_bound_witness :
    ("aaaa bbbb").toList ∈ textwrap_wrap (9 : Int).toNat
        (strip_ansi (("aaaa bbbb cccc").toList)) ∧
      ((("aaaa bbbb").toList).length ≤ (9 : Int).toNat ∨
        ("aaaa bbbb").toList ∈ wordsep_split (munge_whitespace
          (strip_ansi (("aaaa bbbb cccc").toList)))) :=
  ⟨by decide, c1_width_bound (("aaaa bbbb cccc").toList) 9
    (("aaaa bbbb").toList) (by decide)⟩

/-- C2 counterexample: wrapping `"aaaa bbbb cccc"` (no escape codes) at
width 9 returns `["aaaa bbbb", "ccc"]` — the space before `"cccc"` is
stripped and the final `"c"` is cut away and discarded, so the concatenated
escape-stripped output differs from the escape-stripped input. -/
theorem c2_counterexample :
    ((wrap_ansicode (("aaaa bbbb cccc").toList) 9 5).map strip_ansi).flatten ≠
      strip_ansi (("aaaa bbbb cccc").toList) := by
  decide

/-- C2 (corrected): content preservation holds up to the visible wrapping
stage — the segments of the word-wrapped escape-stripped text concatenate
exactly to the tab-expanded escape-stripped input — and the emitted lines
are the left-stripped members of a partition of the input into consecutive
raw slices followed by a dropped remainder: each cut loses only leading
whitespace, plus whatever a misplaced final cut leaves unconsumed, so the
exact output-level equality fails. -/
theorem c2_content_preservation (s : Str) (column_width match_width : Int)
    (h1 : 0 < column_width)
    (h2 : column_width < ((strip_ansi s).length : Int)) :
    (textwrap_wrap column_width.toNat (strip_ansi s)).flatten =
      munge_whitespace (strip_ansi s) ∧
    ∃ (raws : List Str) (rem : Str),
      wrap_ansicode s column_width match_width = raws.map lstrip ∧
      raws.flatten ++ rem = s := by
  exact ⟨textwrap_wrap_flatten column_width.toNat (strip_ansi s),
    wrap_ansicode_decomp s column_width match_width h1 h2⟩

/-- Witness for C2 at width 9 on `"aaaa bbbb cccc"`. -/
theorem c2_content_preservation_witness :
    (0 : Int) < 9 ∧ (9 : Int) < ((strip_ansi (("aaaa bbbb cccc").toList)).length : Int) ∧
      ((textwrap_wrap (9 : Int).toNat (strip_ansi (("aaaa bbbb cccc").toList))).flatten =
        munge_whitespace (strip_ansi (("aaaa bbbb cccc").toList)) ∧
      ∃ (raws : List Str) (rem : Str),
        wrap_ansicode (("aaaa bbbb cccc").toList) 9 5 = raws.map lstrip ∧
        raws.flatten ++ rem = ("aaaa bbbb cccc").toList) :=
  ⟨by decide, by decide,
    c2_content_preservation (("aaaa bbbb cccc").toList) 9 5 (by decide) (by decide)⟩

/-- C3 counterexample: wrapping twenty-five `a`s followed by `"\x1b[0m"` at
width 20 returns `["aaaaaaaaaa"]` — the anchor `"aaaaa"` matches at the
start of the zone, the long word is cut at 10 characters, the rest of the
loop's input (escape sequence included) is discarded, and the escape
sequence of the input is absent from the output. -/
theorem c3_counterexample :
    extract_escapes ((wrap_ansicode
        (("aaaaaaaaaaaaaaaaaaaaaaaaa\x1b[0m").toList) 20 5).flatten) ≠
      extract_escapes (("aaaaaaaaaaaaaaaaaaaaaaaaa\x1b[0m").toList) := by
  decide

/-- C3 (corrected): escape sequences are preserved exactly — in order and
multiplicity, untruncated — whenever no wrapping occurs (non-positive width
or visible length within the width); when wrapping occurs, a misplaced cut
can drop or truncate escape sequences, as the counterexample shows. -/
theorem c3_escape_preservation (s : Str) (column_width match_width : Int)
    (h : column_width ≤ 0 ∨ ((strip_ansi s).length : Int) ≤ column_width) :
    extract_escapes ((wrap_ansicode s column_width match_width).flatten) =
      extract_escapes s := by
  rw [wrap_ansicode_passthrough s column_width match_width]
  · simp
  · rintro ⟨h1, h2⟩
    rcases h with h | h <;> omega

/-- Witness for C3: a short line carrying two escape sequences is returned
unchanged at width 10, escapes intact. -/
theorem c3_escape_preservation_witness :
    ((strip_ansi (("\x1b[31mAB\x1b[0m").toList)).length : Int) ≤ 10 ∧
      extract_escapes ((wrap_ansicode (("\x1b[31mAB\x1b[0m").toList) 10 5).flatten) =
        extract_escapes (("\x1b[31mAB\x1b[0m").toList) :=
  ⟨by decide, c3_escape_preservation (("\x1b[31mAB\x1b[0m").toList) 10 5
    (Or.inr (by decide))⟩

/-! ## Adequacy of the fuel budgets

The fueled recursions above never reach their fuel-exhausted branches when
run with the fuel they are instantiated with: each of the following lemmas
shows that one scanning step consumes at least one character, and stays
within the scanned string. -/

/-- A run starting with a satisfying character is non-empty. -/
theorem run_count_pos (p : Char → Bool) (c : Char) (r : Str) (h : p c = true) :
    1 ≤ run_count p (c :: r) := by
  unfold run_count
  simp [List.takeWhile_cons, h]

/-- A run never exceeds the string. -/
theorem run_count_le (p : Char → Bool) (s : Str) : run_count p s ≤ s.length := by
  unfold run_count
  induction s with
  | nil => simp
  | cons c r ih =>
    rw [List.takeWhile_cons]
    by_cases h : p c
    · simp only [h, if_true, List.length_cons]
      omega
    · simp [h]

/-- An SGR escape sequence has at least three characters and lies within the
string: the stripping scan consumes at least one character per step. -/
theorem sgr_len_bounds (s : Str) (n : Nat) (h : sgr_len s = some n) :
    3 ≤ n ∧ n ≤ s.length := by
  unfold sgr_len at h
  split at h
  next rest =>
    split at h
    next hm =>
      have hn : (rest.takeWhile sgr_param).length + 3 = n := Option.some.inj h
      have hlt : (rest.takeWhile sgr_param).length < rest.length :=
        (List.get?_eq_some.mp hm).1
      refine ⟨by omega, ?_⟩
      simp only [List.length_cons]
      omega
    next => simp at h
  next => simp at h

/-- The word alternative never answers below the starting length. -/
theorem word_try_go_ge (ctx s : Str) :
    ∀ (fuel L n : Nat), word_try_go ctx s fuel L = some n → L ≤ n := by
  intro fuel
  induction fuel with
  | zero => intro L n h; simp [word_try_go] at h
  | succ f ih =>
    intro L n h
    rw [word_try_go] at h
    by_cases hA : term_hyphen ctx s L
    · rw [if_pos hA] at h
      have := Option.some.inj h
      omega
    · rw [if_neg hA] at h
      by_cases hB : term_end s L
      · rw [if_pos hB] at h
        have := Option.some.inj h
        omega
      · rw [if_neg hB] at h
        by_cases hC : term_emdash s L
        · rw [if_pos hC] at h
          have := Option.some.inj h
          omega
        · rw [if_neg hC] at h
          have := ih (L + 1) n h
          omega

/-- The word alternative never answers beyond the string. -/
theorem word_try_go_le (ctx s : Str) :
    ∀ (fuel L n : Nat), L + fuel ≤ run_count word_punct s + 1 →
      word_try_go ctx s fuel L = some n → n ≤ s.length := by
  intro fuel
  induction fuel with
  | zero => intro L n _ h; simp [word_try_go] at h
  | succ f ih =>
    intro L n hR h
    have hRs := run_count_le word_punct s
    rw [word_try_go] at h
    by_cases hA : term_hyphen ctx s L
    · rw [if_pos hA] at h
      have hn := Option.some.inj h
      have hchar : char_at ctx s (L : Int) = some '-' := by
        unfold term_hyphen at hA
        simp only [Bool.and_eq_true, decide_eq_true_eq] at hA
        exact hA.1.1
      have hget : s.get? L = some '-' := by
        unfold char_at at hchar
        rw [if_pos (by omega : (0 : Int) ≤ (L : Int))] at hchar
        simpa using hchar
      have hlt : L < s.length := (List.get?_eq_some.mp hget).1
      omega
    · rw [if_neg hA] at h
      by_cases hB : term_end s L
      · rw [if_pos hB] at h
        have := Option.some.inj h
        omega
      · rw [if_neg hB] at h
        by_cases hC : term_emdash s L
        · rw [if_pos hC] at h
          have := Option.some.inj h
          omega
        · rw [if_neg hC] at h
          exact ih (L + 1) n (by omega) h

/-- A `wordsep_re` match consumes at least one character and stays within
the string: the splitting scan consumes at least one character per step. -/
theorem try_match_bounds (ctx s : Str) (n : Nat) (h : try_match ctx s = some n) :
    1 ≤ n ∧ n ≤ s.length := by
  cases s with
  | nil => simp [try_match] at h
  | cons c rest =>
    rw [try_match] at h
    split at h
    next hws =>
      have hn := Option.some.inj h
      refine ⟨?_, ?_⟩
      · rw [← hn]
        exact run_count_pos tw_whitespace c rest hws
      · rw [← hn]
        exact run_count_le tw_whitespace (c :: rest)
    next hws =>
      split at h
      next hd =>
        split at h
        next hg =>
          have hn := Option.some.inj h
          simp only [Bool.and_eq_true, decide_eq_true_eq] at hg
          have h2 := hg.1.2
          have hle := run_count_le (fun x => decide (x = '-')) (c :: rest)
          constructor <;> omega
        next => simp at h
      next hd =>
        split at h
        next hwp =>
          unfold word_try at h
          refine ⟨le_trans (by omega) (word_try_go_ge ctx (c :: rest) _ 1 n h), ?_⟩
          exact word_try_go_le ctx (c :: rest) _ 1 n (by omega) h
        next => simp at h
